import Mathlib

/-!
Shallow embedding of the fast_align word-alignment trainer
(src/unnamed/part_001, `main` and its helpers), together with proofs about
the claims of the specification.

Numbers are modelled over an arbitrary `LinearOrderedField` (instantiated at
`ℚ` for concrete evaluations and at `ℝ` with `Real.exp` where the claims are
about the real exponential).  The transcendental collaborators `exp`, `log`
and `digamma` (from `m.h` / `<cmath>`, outside src/) are threaded through the
configuration as explicit function parameters, so that instantiating
`expF := Real.exp`, `logF := Real.log` recovers the exact computation of the
program over exact real arithmetic.
-/

namespace FastAlign

/-- Interned word identifier, as produced by the vocabulary collaborator
(`WordID`); per the spec the id 0 is reserved for the NULL token. -/
abbrev Word := Nat

/-- The id of the NULL token (`kNULL = TD::Convert("<eps>")` in the source). -/
def kNULL : Word := 0

/-- Inner level of the two-level table: target word to value, an association
list in which the first occurrence of a key is the binding (matching the
unique-key maps of the source). -/
abbrev W2D (α : Type) := List (Word × α)

/-- Outer level: source word to inner map. -/
abbrev W2W2D (α : Type) := List (Word × W2D α)

/-- Association-list lookup: first binding of the key, if any. -/
def lookupW {β : Type} : List (Word × β) → Word → Option β
  | [], _ => none
  | (k, v) :: rest, f => if k = f then some v else lookupW rest f

/-- Two-level lookup of `m[e][f]`. -/
def lookup2 {α : Type} (m : W2W2D α) (e f : Word) : Option α :=
  match lookupW m e with
  | none => none
  | some row => lookupW row f

/-- `row[f] += x`, creating the entry (with prior value 0) when missing;
this is the behaviour of `counts[e][f] += x` on the C++ maps. -/
def addTo {α : Type} [Add α] : W2D α → Word → α → W2D α
  | [], f, x => [(f, x)]
  | (k, v) :: rest, f, x =>
      if k = f then (k, v + x) :: rest else (k, v) :: addTo rest f x

/-- `m[e][f] += x` on the outer map. -/
def addTo2 {α : Type} [Add α] : W2W2D α → Word → Word → α → W2W2D α
  | [], e, f, x => [(e, [(f, x)])]
  | (k, row) :: rest, e, f, x =>
      if k = e then (k, addTo row f x) :: rest else (k, row) :: addTo2 rest e f x

/-- Modelled from the spec: the two-level count/probability store `TTable`
(§4.1 of the spec; its source `ttables.h` is not under src/).  Per §2 it is a
"count/probability store" and per §5 the E-step of an iteration must observe
the fully-normalized table of the previous iteration, so it keeps the
probability map `ttable` (read by `prob`, and iterated by the parameter dump
in the source) separate from the accumulator map `counts` (written by
`Increment`); `Normalize`/`NormalizeVB` turn the accumulated counts into the
new probability map and clear the accumulator. -/
structure TTable (α : Type) where
  ttable : W2W2D α
  counts : W2W2D α
deriving DecidableEq

variable {α : Type} [LinearOrderedField α]

/-- Modelled from the spec: the small positive default (1e-9, the "unseen"
mass) that `prob` returns on a missing entry (§4.1). -/
def floorProb : α := 1 / 1000000000

/-- Modelled from the spec: `prob(e, f)` returns `T[e][f]` if present, else
the positive floor `1e-9`; it never fails (§4.1). -/
def TTable.prob (t : TTable α) (e f : Word) : α :=
  match lookup2 t.ttable e f with
  | some v => v
  | none => floorProb

/-- Modelled from the spec: `increment(e, f, δ)` adds δ to the accumulator,
creating entries as needed (§4.1). -/
def TTable.Increment (t : TTable α) (e f : Word) (x : α) : TTable α :=
  { t with counts := addTo2 t.counts e f x }

/-- Sum of the values of an inner row. -/
def rowSum (m : W2D α) : α := (m.map Prod.snd).sum

/-- Modelled from the spec: `normalize()` — for every source word compute the
row sum s and replace each value by value / s; rows with s = 0 are dropped;
the result becomes the probability map and the accumulator is cleared (§4.1,
§3 lifecycle). -/
def TTable.Normalize (t : TTable α) : TTable α :=
  { ttable := (t.counts.filter fun p => decide (0 < rowSum p.2)).map
      fun p => (p.1, p.2.map fun q => (q.1, q.2 / rowSum p.2)),
    counts := [] }

/-- Modelled from the spec: `normalize_vb(α)` — the variational-Bayes update
value ↦ exp(ψ(value + a) − ψ(s + a·|row|)) with s the row sum and ψ the
digamma function, both supplied as explicit function parameters (§4.1). -/
def TTable.NormalizeVB (t : TTable α) (expF digammaF : α → α) (a : α) : TTable α :=
  { ttable := t.counts.map fun p =>
      (p.1, p.2.map fun q =>
        (q.1, expF (digammaF (q.2 + a) - digammaF (rowSum p.2 + a * (p.2.length : α))))),
    counts := [] }

/-- The configuration derived from the command line in `InitCommandLine`
(lines 58-81 of the source).  `beamThreshold` stores the already
exponentiated value `BEAM_THRESHOLD = 10 ^ beam_threshold` of line 64;
`writeAlignments` is the negation of `output_parameters`; `useNull` the
negation of `no_null_word`; `addViterbi` the negation of `no_add_viterbi`.
The mathematical collaborators exp, log and digamma are explicit fields. -/
structure Config (α : Type) where
  reverse : Bool
  iterations : Nat
  beamThreshold : α
  useNull : Bool
  addViterbi : Bool
  variationalBayes : Bool
  writeAlignments : Bool
  diagonalTension : α
  probAlignNull : α
  hideTrainingAlignments : Bool
  favorDiagonal : Bool
  alpha : α
  expF : α → α
  logF : α → α
  digammaF : α → α

/-- The unnormalized diagonal weight `unnormed_a_i[ta] =
exp(-|ta/I - j/J| * diagonal_tension)` of line 133 (k plays the role of
`ta = i - 1`). -/
def diagWeight (cfg : Config α) (I J j k : Nat) : α :=
  cfg.expF (-(|(k : α) / (I : α) - (j : α) / (J : α)|) * cfg.diagonalTension)

/-- The accumulated `az` of lines 130-135 before the division. -/
def azRaw (cfg : Config α) (I J j : Nat) : α :=
  ((List.range I).map fun k => diagWeight cfg I J j k).sum

/-- `az /= prob_align_not_null` of line 136: the normalizer
Z = (Σ w) / (1 - p_null). -/
def azNorm (cfg : Config α) (I J j : Nat) : α :=
  azRaw cfg I J j / (1 - cfg.probAlignNull)

/-- The prior used for the NULL candidate (`prob_a_i` at line 127): the
uniform 1/(I+1) of line 124, overridden by `prob_align_null` when
`favor_diagonal` is set (line 126).  Only read when `use_null` is true. -/
def priorNull (cfg : Config α) (I : Nat) : α :=
  if cfg.favorDiagonal then cfg.probAlignNull else 1 / ((I : α) + 1)

/-- The prior `prob_a_i` for real source position i = k+1 (lines 138-140):
`unnormed_a_i[i-1] / az` when `favor_diagonal`, else the uniform
1/(I + use_null) of line 124. -/
def priorAt (cfg : Config α) (I J j k : Nat) : α :=
  if cfg.favorDiagonal then diagWeight cfg I J j k / azNorm cfg I J j
  else 1 / ((I : α) + (if cfg.useNull then 1 else 0))

/-- `probs[0] = s2t.prob(kNULL, f_j) * prob_a_i` (line 127) when `use_null`,
0 otherwise (the vector is zero-initialized and `probs[0]` is then never
read). -/
def probs0 (cfg : Config α) (t : TTable α) (src : List Word) (f : Word) : α :=
  if cfg.useNull then t.prob kNULL f * priorNull cfg src.length else 0

/-- `probs[i] = s2t.prob(src[i-1], f_j) * prob_a_i` for i = 1..I, as the list
indexed by k = i-1 (lines 138-142). -/
def probsPos (cfg : Config α) (t : TTable α) (src : List Word) (f : Word) (J j : Nat) : List α :=
  (List.range src.length).map fun k =>
    t.prob (src.getD k 0) f * priorAt cfg src.length J j k

/-- The accumulated `sum` over all alignment candidates of a target position
(lines 122-143). -/
def sumOver (cfg : Config α) (t : TTable α) (src : List Word) (f : Word) (J j : Nat) : α :=
  probs0 cfg t src f + (probsPos cfg t src f J j).sum

/-- The running best of the final-iteration argmax (`max_i`, `max_p`,
`max_index` of lines 146-148); `max_index` is an `Int` because it is
initialized to -1. -/
structure AMax (α : Type) where
  max_i : Word
  max_p : α
  max_index : Int
deriving DecidableEq

/-- Initial candidate of the argmax: lines 146-153.  When `use_null`, NULL is
installed with `probs[0]`; otherwise the sentinels 0 / -1 / -1 remain. -/
def amaxInit (cfg : Config α) (p0 : α) : AMax α :=
  if cfg.useNull then ⟨kNULL, p0, 0⟩ else ⟨0, -1, -1⟩

/-- One step of the argmax loop (lines 154-160): a candidate replaces the
current best only on strict improvement `probs[i] > max_p`. -/
def amaxStep (st : AMax α) (i : Nat) (pi : α) (wi : Word) : AMax α :=
  if st.max_p < pi then ⟨wi, pi, (i : Int)⟩ else st

/-- The whole final-iteration argmax over candidates i = 1..I with values
`probs[i]` (`ps` indexed by k = i-1) and words `src[i-1]`. -/
def amaxRun (cfg : Config α) (src : List Word) (ps : List α) (p0 : α) : AMax α :=
  (List.range src.length).foldl
    (fun st k => amaxStep st (k + 1) (ps.getD k 0) (src.getD k 0))
    (amaxInit cfg p0)

/-- One emitted alignment token for target position j and winning
`max_index`: `j-(max_index-1)` in reverse mode, `(max_index-1)-j` otherwise
(lines 164-167). -/
def tokenOf (cfg : Config α) (j : Nat) (idx : Int) : Nat × Nat :=
  if cfg.reverse then (j, (idx - 1).toNat) else ((idx - 1).toNat, j)

/-- The per-sentence mutable data threaded through the target-position loop:
the table (whose accumulator the E-step increments), the Viterbi set, the
sentence log-likelihood contribution, and the alignment tokens emitted for
this sentence. -/
structure SentOut (α : Type) where
  table : TTable α
  vit : List (Word × Word)
  like : α
  toks : List (Nat × Nat)
deriving DecidableEq

/-- The body of the target-position loop (lines 120-179) for position j.
On the final iteration (lines 144-171) the argmax is computed when
`add_viterbi || write_alignments`, a token is emitted when additionally
`!hide_training_alignments && write_alignments && max_index > 0`, and the
winning pair is recorded in the Viterbi set; on non-final iterations
(lines 172-177) the expected counts are accumulated.  In both cases
`likelihood += log(sum)` (line 178). -/
def processPos (cfg : Config α) (final : Bool) (src trg : List Word)
    (o : SentOut α) (j : Nat) : SentOut α :=
  let f := trg.getD j 0
  let p0 := probs0 cfg o.table src f
  let ps := probsPos cfg o.table src f trg.length j
  let sum := sumOver cfg o.table src f trg.length j
  if final then
    if cfg.addViterbi || cfg.writeAlignments then
      let am := amaxRun cfg src ps p0
      { table := o.table,
        vit := (am.max_i, f) :: o.vit,
        like := o.like + cfg.logF sum,
        toks := o.toks ++
          (if cfg.writeAlignments && !cfg.hideTrainingAlignments
              && decide (0 < am.max_index) then [tokenOf cfg j am.max_index] else []) }
    else
      { o with like := o.like + cfg.logF sum }
  else
    let t1 := if cfg.useNull then o.table.Increment kNULL f (p0 / sum) else o.table
    let t2 := (List.range src.length).foldl
      (fun tt k => TTable.Increment tt (src.getD k 0) f (ps.getD k 0 / sum)) t1
    { o with table := t2, like := o.like + cfg.logF sum }

/-- Processing of one (already swapped) sentence pair: the loop over target
positions j = 0..|trg|-1, starting from likelihood 0 and no tokens. -/
def processSentence (cfg : Config α) (final : Bool) (t : TTable α)
    (vit : List (Word × Word)) (src trg : List Word) : SentOut α :=
  (List.range trg.length).foldl (processPos cfg final src trg) ⟨t, vit, 0, []⟩

/-- A corpus line, already parsed by the reader collaborator into the two
sides (src ids, trg ids). -/
abbrev Line := List Word × List Word

/-- The fatal-format-error outcome: the 1-based line number and the offending
line, printed to stderr before `return 1` (lines 109-112). -/
abbrev RunErr := Nat × Line

/-- The state accumulated by one pass over the corpus (one iteration of the
outer loop, lines 91-181): table, Viterbi set, iteration log-likelihood, the
per-pair likelihood contributions, the emitted alignment lines, the length
ratio accumulator, `denom` and the line counter `lc`. -/
structure PassResult (α : Type) where
  table : TTable α
  vit : List (Word × Word)
  like : α
  perPair : List α
  alignLines : List (List (Nat × Nat))
  totLenRat : α
  denom : α
  lc : Nat
deriving DecidableEq

/-- One pass over the corpus (the while loop of lines 100-181).  The swap of
line 108 is applied when `reverse`; an empty side aborts the program with the
line number and the line (lines 109-112); `tot_len_ratio` accumulates only
when `iter0` (lines 115-116); a line of tokens is printed per sentence when
`write_alignments && final && !hide_training_alignments` (lines 161-169 and
180). -/
def runPass (cfg : Config α) (iter0 final : Bool) :
    List Line → PassResult α → Except RunErr (PassResult α)
  | [], st => .ok st
  | p :: rest, st =>
    let sp := if cfg.reverse then (p.2, p.1) else p
    if sp.1.length = 0 ∨ sp.2.length = 0 then .error (st.lc + 1, p)
    else
      let so := processSentence cfg final st.table st.vit sp.1 sp.2
      runPass cfg iter0 final rest
        { table := so.table,
          vit := so.vit,
          like := st.like + so.like,
          perPair := st.perPair ++ [so.like],
          alignLines := st.alignLines ++
            (if cfg.writeAlignments && final && !cfg.hideTrainingAlignments
             then [so.toks] else []),
          totLenRat := st.totLenRat +
            (if iter0 then (sp.2.length : α) / (sp.1.length : α) else 0),
          denom := st.denom + (sp.2.length : α),
          lc := st.lc + 1 }

/-- The driver state that survives across iterations (declared before the
iteration loop, lines 83-87): the table, the Viterbi set, `tot_len_ratio`
and `mean_srclen_multiplier`. -/
structure TrainState (α : Type) where
  table : TTable α
  vit : List (Word × Word)
  totLenRat : α
  mean : α
deriving DecidableEq

/-- The per-pass accumulator reset at the top of each iteration
(lines 93-95). -/
def initPass (st : TrainState α) : PassResult α :=
  { table := st.table, vit := st.vit, like := 0, perPair := [],
    alignLines := [], totLenRat := st.totLenRat, denom := 0, lc := 0 }

/-- The epoch-boundary renormalization (lines 195-200): nothing on the final
iteration, else `NormalizeVB(alpha)` under variational Bayes and `Normalize`
otherwise. -/
def endOfPass (cfg : Config α) (final : Bool) (t : TTable α) : TTable α :=
  if final then t
  else if cfg.variationalBayes then t.NormalizeVB cfg.expF cfg.digammaF cfg.alpha
  else t.Normalize

/-- The observable output of one iteration. -/
structure IterOut (α : Type) where
  state : TrainState α
  perPair : List α
  alignLines : List (List (Nat × Nat))
deriving DecidableEq

/-- One iteration of the outer loop (lines 88-201): a pass over the corpus,
followed by setting `mean_srclen_multiplier = tot_len_ratio / lc` when
`iter = 0` (lines 187-189) and the epoch-boundary renormalization. -/
def runIteration (cfg : Config α) (corpus : List Line) (iter : Nat)
    (st : TrainState α) : Except RunErr (IterOut α) :=
  let final := iter == cfg.iterations - 1
  match runPass cfg (iter == 0) final corpus (initPass st) with
  | .error e => .error e
  | .ok pr =>
    .ok { state :=
            { table := endOfPass cfg final pr.table,
              vit := pr.vit,
              totLenRat := pr.totLenRat,
              mean := if iter = 0 then pr.totLenRat / (pr.lc : α) else st.mean },
          perPair := pr.perPair,
          alignLines := pr.alignLines }

/-- The whole-training observable: final driver state, the per-pair
likelihoods of every iteration, and all alignment lines printed. -/
structure TrainResult (α : Type) where
  state : TrainState α
  perPairAll : List (List α)
  alignOut : List (List (Nat × Nat))
deriving DecidableEq

/-- The iteration loop, folded over the list of iteration indices. -/
def runIters (cfg : Config α) (corpus : List Line) :
    List Nat → TrainResult α → Except RunErr (TrainResult α)
  | [], r => .ok r
  | i :: rest, r =>
    match runIteration cfg corpus i r.state with
    | .error e => .error e
    | .ok o => runIters cfg corpus rest
        { state := o.state,
          perPairAll := r.perPairAll ++ [o.perPair],
          alignOut := r.alignOut ++ o.alignLines }

/-- The empty table of line 83. -/
def emptyTTable : TTable α := ⟨[], []⟩

/-- The driver state before the first iteration (lines 83-87). -/
def initTrain : TrainState α :=
  { table := emptyTTable, vit := [], totLenRat := 0, mean := 0 }

/-- EM training: `for (iter = 0; iter < ITERATIONS; ++iter)` (line 88). -/
def runTrain (cfg : Config α) (corpus : List Line) : Except RunErr (TrainResult α) :=
  runIters cfg corpus (List.range cfg.iterations) ⟨initTrain, [], []⟩

/-- The per-row maximum of the dump loop (`max_p`, lines 269-271),
initialized to -1. -/
def rowMax (m : W2D α) : α :=
  m.foldl (fun mp q => if mp < q.2 then q.2 else mp) (-1)

/-- The dump lines produced for one source word e (lines 267-277): every
(f, value) of the row with `value > rowMax * BEAM_THRESHOLD` or `(e, f)` in
the Viterbi set, as `(e, f, log value)`. -/
def dumpRow (cfg : Config α) (vit : List (Word × Word)) (e : Word)
    (cpd : W2D α) : List (Word × Word × α) :=
  (cpd.filter fun q =>
      decide (rowMax cpd * cfg.beamThreshold < q.2) || decide ((e, q.1) ∈ vit)).map
    fun q => (e, q.1, cfg.logF q.2)

/-- The post-training parameter dump (lines 265-278): iterate the outer
probability map and emit the surviving rows.  Note it iterates `s2t.ttable`,
so only pairs present in the probability map can appear. -/
def paramDump (cfg : Config α) (t : TTable α) (vit : List (Word × Word)) :
    List (Word × Word × α) :=
  t.ttable.foldl (fun acc p => acc ++ dumpRow cfg vit p.1 p.2) []

/-- The whole program in parameter-output mode: train, then dump
(reached only when `write_alignments` is false, line 263). -/
def runProgramDump (cfg : Config α) (corpus : List Line) :
    Except RunErr (List (Word × Word × α)) :=
  match runTrain cfg corpus with
  | .error e => .error e
  | .ok r => .ok (paramDump cfg r.state.table r.state.vit)

/-- Modelled from the spec: `Md::log_poisson` (`m.h` is not under src/), the
log of the Poisson pmf, n·log λ − λ − log(n!) (§4.5). -/
def logPoisson (logF : α → α) (n : Nat) (lam : α) : α :=
  (n : α) * logF lam - lam - logF ((Nat.factorial n : Nat) : α)

/-- The test-scorer log probability of one held-out pair (lines 210-246):
the Poisson length prior at `0.05 + |src| * mean_srclen_multiplier` plus the
per-position `log(sum)` terms under the learned table. -/
def testSentLogProb (cfg : Config α) (t : TTable α) (mean : α) (p : Line) : α :=
  let sp := if cfg.reverse then (p.2, p.1) else p
  (List.range sp.2.length).foldl
    (fun acc j => acc + cfg.logF (sumOver cfg t sp.1 (sp.2.getD j 0) sp.2.length j))
    (logPoisson cfg.logF sp.2.length (1 / 20 + (sp.1.length : α) * mean))

/-- The test-scorer pass (lines 202-261): one score per testset line. -/
def scoreTestset (cfg : Config α) (t : TTable α) (mean : α)
    (testset : List Line) : List α :=
  testset.map (testSentLogProb cfg t mean)

/-- The length-ratio total Σ |trg|/|src| over the (swap-applied) corpus. -/
def corpusLenRat (cfg : Config α) (corpus : List Line) : α :=
  (corpus.map fun p =>
    ((if cfg.reverse then (p.2, p.1) else p).2.length : α) /
    ((if cfg.reverse then (p.2, p.1) else p).1.length : α)).sum

/-- A line is rejected when, after the reverse swap, either side is empty
(lines 108-112). -/
def badLine (cfg : Config α) (p : Line) : Prop :=
  (if cfg.reverse then (p.2, p.1) else p).1.length = 0 ∨
  (if cfg.reverse then (p.2, p.1) else p).2.length = 0

/-- Every value stored in the probability map is positive. -/
def posVals (t : TTable α) : Prop :=
  ∀ p ∈ t.ttable, ∀ q ∈ p.2, 0 < q.2

/-- Every value stored in the probability map is nonnegative. -/
def nonnegVals (t : TTable α) : Prop :=
  ∀ p ∈ t.ttable, ∀ q ∈ p.2, 0 ≤ q.2

instance {ε β : Type} [DecidableEq ε] [DecidableEq β] : DecidableEq (Except ε β)
  | .error e, .error f =>
    if h : e = f then .isTrue (congrArg Except.error h)
    else .isFalse fun hc => h (Except.error.inj hc)
  | .error _, .ok _ => .isFalse fun hc => Except.noConfusion hc
  | .ok _, .error _ => .isFalse fun hc => Except.noConfusion hc
  | .ok a, .ok b =>
    if h : a = b then .isTrue (congrArg Except.ok h)
    else .isFalse fun hc => h (Except.ok.inj hc)

/-- A concrete rational configuration used to exercise the model: one EM
iteration, parameter output (`write_alignments = false`), NULL enabled,
`favor_diagonal` off (so the exp/log/digamma collaborators are irrelevant to
the control flow and are instantiated by the identity). -/
def qCfg : Config ℚ :=
  { reverse := false, iterations := 1, beamThreshold := 1 / 10000,
    useNull := true, addViterbi := true, variationalBayes := false,
    writeAlignments := false, diagonalTension := 4, probAlignNull := 2 / 25,
    hideTrainingAlignments := false, favorDiagonal := false, alpha := 1 / 100,
    expF := fun x => x, logF := fun x => x, digammaF := fun x => x }

/-- A concrete real configuration with the program's actual mathematical
collaborators: `exp`, `log` and the digamma function ψ = (log Γ)′.
`favor_diagonal` is on, `diagonal_tension` is 0, NULL generation is off and
`prob_align_null` keeps its command-line default 0.08 = 2/25. -/
noncomputable def rCfg : Config ℝ :=
  { reverse := false, iterations := 5, beamThreshold := 1 / 10000,
    useNull := false, addViterbi := true, variationalBayes := false,
    writeAlignments := true, diagonalTension := 0, probAlignNull := 2 / 25,
    hideTrainingAlignments := false, favorDiagonal := true, alpha := 1 / 100,
    expF := Real.exp, logF := Real.log,
    digammaF := fun x => deriv (fun y => Real.log (Real.Gamma y)) x }

/-- The observable outcome of the concrete one-iteration parameter-output run
of `qCfg` on the corpus [([1], [2])]: the final pass records the Viterbi pair
(kNULL, 2) while the probability table stays empty (no normalization ever
ran), `tot_len_ratio = 1`, `mean_srclen_multiplier = 1`, and the single
per-pair likelihood is `logF` of the position sum 1e-9. -/
def qRun1 : TrainResult ℚ :=
  { state := { table := emptyTTable, vit := [(kNULL, 2)], totLenRat := 1, mean := 1 },
    perPairAll := [[1 / 1000000000]],
    alignOut := [] }

/-- The configuration `qCfg` with the abstract exponential replaced by the
constant 1, a function satisfying the positivity contract of the real
exponential. -/
def qCfgExpOne : Config ℚ := { qCfg with expF := fun _ => 1 }

/-- A concrete one-row probability table: T[1][2] = 1/2, empty accumulator. -/
def qTab : TTable ℚ := ⟨[(1, [(2, 1 / 2)])], []⟩

/-- The reverse-mode view of a per-sentence state: every emitted token has
its two indices exchanged; table, Viterbi set and likelihood are identical. -/
def mirrorSent (o : SentOut α) : SentOut α :=
  { o with toks := o.toks.map Prod.swap }

/-- Exchange the two indices of every token of every alignment line. -/
def mirrorLines (ls : List (List (Nat × Nat))) : List (List (Nat × Nat)) :=
  ls.map (List.map Prod.swap)

/-- The reverse-mode view of a pass state: alignment lines token-swapped,
everything else identical. -/
def mirrorPass (st : PassResult α) : PassResult α :=
  { st with alignLines := mirrorLines st.alignLines }

/-- The reverse-mode view of a pass outcome: on success the lines are
token-swapped; a format error reports the same line number with the sides of
the offending line exchanged. -/
def mirrorPassExc : Except RunErr (PassResult α) → Except RunErr (PassResult α)
  | .error (n, p) => .error (n, (p.2, p.1))
  | .ok st => .ok (mirrorPass st)

/-- The reverse-mode view of an iteration outcome. -/
def mirrorIterExc : Except RunErr (IterOut α) → Except RunErr (IterOut α)
  | .error (n, p) => .error (n, (p.2, p.1))
  | .ok o => .ok { o with alignLines := mirrorLines o.alignLines }

/-- The reverse-mode view of a whole training result: alignment output
token-swapped, driver state and per-pair likelihoods identical. -/
def mirrorResult (r : TrainResult α) : TrainResult α :=
  { r with alignOut := mirrorLines r.alignOut }

/-- The reverse-mode view of a whole run outcome. -/
def mirrorExc : Except RunErr (TrainResult α) → Except RunErr (TrainResult α)
  | .error (n, p) => .error (n, (p.2, p.1))
  | .ok r => .ok (mirrorResult r)

/-! ### Helper lemmas -/

lemma sum_map_div (l : List Nat) (g : Nat → α) (c : α) :
    (l.map fun k => g k / c).sum = (l.map g).sum / c := by
  induction l with
  | nil => simp
  | cons a l ih => simp [ih, add_div]

lemma azRaw_pos (cfg : Config α) (hexp : ∀ x, 0 < cfg.expF x)
    (I J j : Nat) (hI : 0 < I) : 0 < azRaw cfg I J j := by
  refine List.sum_pos _ (fun x hx => ?_) ?_
  · rcases List.mem_map.1 hx with ⟨k, _, rfl⟩
    exact hexp _
  · simp only [ne_eq, List.map_eq_nil_iff, List.range_eq_nil]
    omega

lemma azRaw_tension_zero (cfg : Config ℝ) (hexp : cfg.expF = Real.exp)
    (hτ : cfg.diagonalTension = 0) (I J j : Nat) :
    azRaw cfg I J j = (I : ℝ) := by
  unfold azRaw diagWeight
  rw [hexp, hτ]
  simp [mul_zero, Real.exp_zero, List.map_const]

/-- C2 (sum of the diagonal prior): with `favor_diagonal` and `use_null` both
on and 0 < p_null < 1, the prior of the NULL candidate is exactly p_null, the
priors of the real source positions sum to 1 − p_null, and together the
alignment prior is normalized to 1, for every source length I > 0, target
length J and target position j. -/
theorem diag_prior_normalized (cfg : Config ℝ) (hexp : cfg.expF = Real.exp)
    (hfd : cfg.favorDiagonal = true) (hnull : cfg.useNull = true)
    (hp0 : 0 < cfg.probAlignNull) (hp1 : cfg.probAlignNull < 1)
    (I J j : Nat) (hI : 0 < I) :
    priorNull cfg I = cfg.probAlignNull ∧
    ((List.range I).map fun k => priorAt cfg I J j k).sum = 1 - cfg.probAlignNull ∧
    priorNull cfg I + ((List.range I).map fun k => priorAt cfg I J j k).sum = 1 := by
  have hpos : 0 < azRaw cfg I J j :=
    azRaw_pos cfg (fun x => by rw [hexp]; exact Real.exp_pos x) I J j hI
  have hsum : ((List.range I).map fun k => priorAt cfg I J j k).sum
      = 1 - cfg.probAlignNull := by
    have : ∀ k, priorAt cfg I J j k = diagWeight cfg I J j k / azNorm cfg I J j := by
      intro k; simp [priorAt, hfd]
    simp only [this]
    rw [sum_map_div]
    show azRaw cfg I J j / azNorm cfg I J j = 1 - cfg.probAlignNull
    rw [azNorm, div_div_eq_mul_div, mul_comm, mul_div_assoc,
      div_self (ne_of_gt hpos), mul_one]
  refine ⟨by simp [priorNull, hfd], hsum, ?_⟩
  rw [hsum]
  simp [priorNull, hfd]

/-- C2 witness: the normalization at the concrete instance I = J = 1, j = 0,
p_null = 1/2, τ = 4 of the real configuration. -/
theorem diag_prior_normalized_witness :
    priorNull { rCfg with useNull := true, probAlignNull := 1 / 2 } 1 +
      ((List.range 1).map fun k =>
        priorAt { rCfg with useNull := true, probAlignNull := 1 / 2 } 1 1 0 k).sum = 1 :=
  (diag_prior_normalized { rCfg with useNull := true, probAlignNull := 1 / 2 }
    rfl rfl rfl (by norm_num) (by norm_num) 1 1 0 (by norm_num)).2.2

/-- C3 counterexample: with `favor_diagonal` on, τ = 0, `use_null` off and the
default p_null = 0.08 = 2/25, the per-position alignment prior at I = J = 1,
j = 0 is (1 − p_null)/I = 23/25, which differs from the uniform prior 1/I = 1
produced with `favor_diagonal` disabled: the code divides `az` by
`1 − prob_align_null` even when no NULL mass is reserved (line 136). -/
theorem diag_tension_zero_not_uniform :
    priorAt rCfg 1 1 0 0 ≠ priorAt { rCfg with favorDiagonal := false } 1 1 0 0 := by
  have hr : azRaw rCfg 1 1 0 = (1 : ℝ) := by
    simpa using azRaw_tension_zero rCfg rfl rfl 1 1 0
  have hw : diagWeight rCfg 1 1 0 0 = 1 := by
    simp [diagWeight, rCfg, Real.exp_zero]
  have h1 : priorAt rCfg 1 1 0 0 = 23 / 25 := by
    simp only [priorAt]
    rw [if_pos (show rCfg.favorDiagonal = true from rfl), azNorm, hr, hw]
    norm_num [rCfg]
  have h2 : priorAt { rCfg with favorDiagonal := false } 1 1 0 0 = 1 := by
    simp [priorAt, rCfg]
  rw [h1, h2]
  norm_num

/-- C3 amended: with `use_null` off, `favor_diagonal` on and τ = 0, every
per-position prior equals (1 − p_null) times the uniform prior produced with
`favor_diagonal` disabled (which is 1/I); the two runs produce the same prior
exactly when p_null = 0, not for the default p_null = 0.08. -/
theorem diag_tension_zero_scaled_uniform (cfg : Config ℝ)
    (hexp : cfg.expF = Real.exp) (hfd : cfg.favorDiagonal = true)
    (hnull : cfg.useNull = false) (hτ : cfg.diagonalTension = 0)
    (I J j k : Nat) (hI : 0 < I) :
    priorAt cfg I J j k =
      (1 - cfg.probAlignNull) * priorAt { cfg with favorDiagonal := false } I J j k ∧
    priorAt { cfg with favorDiagonal := false } I J j k = 1 / (I : ℝ) := by
  have huni : priorAt { cfg with favorDiagonal := false } I J j k = 1 / (I : ℝ) := by
    simp [priorAt, hnull]
  have hw : diagWeight cfg I J j k = 1 := by
    unfold diagWeight
    rw [hexp, hτ]
    simp
  have hr : azRaw cfg I J j = (I : ℝ) := azRaw_tension_zero cfg hexp hτ I J j
  have hmain : priorAt cfg I J j k = (1 - cfg.probAlignNull) / (I : ℝ) := by
    simp only [priorAt]
    rw [if_pos hfd, azNorm, hr, hw, div_div_eq_mul_div, one_mul]
  exact ⟨by rw [hmain, huni, mul_one_div], huni⟩

/-- C3 amended witness: the scaling identity at the concrete real
configuration (τ = 0, p_null = 2/25, `use_null` off) and I = J = 1, j = k = 0. -/
theorem diag_tension_zero_scaled_uniform_witness :
    priorAt rCfg 1 1 0 0 =
      (1 - rCfg.probAlignNull) * priorAt { rCfg with favorDiagonal := false } 1 1 0 0 :=
  (diag_tension_zero_scaled_uniform rCfg rfl rfl rfl rfl 1 1 0 0 (by norm_num)).1

/-! ### C5: abort on an empty side -/

lemma runPass_first_bad (cfg : Config α) (i0 f : Bool) :
    ∀ (cs : List Line) (st : PassResult α) (n : Nat), n < cs.length →
    badLine cfg (cs.getD n ([], [])) →
    (∀ m, m < n → ¬ badLine cfg (cs.getD m ([], []))) →
    runPass cfg i0 f cs st = .error (st.lc + n + 1, cs.getD n ([], [])) := by
  intro cs
  induction cs with
  | nil => intro st n hn; exact absurd hn (by simp)
  | cons p rest ih =>
    intro st n hn hbad hgood
    cases n with
    | zero =>
      have hb : (if cfg.reverse then (p.2, p.1) else p).1.length = 0 ∨
          (if cfg.reverse then (p.2, p.1) else p).2.length = 0 := by
        simpa [badLine] using hbad
      simp only [runPass, List.getD_cons_zero] at hbad ⊢
      rw [if_pos hb]
    | succ n =>
      have hgd : ¬ ((if cfg.reverse then (p.2, p.1) else p).1.length = 0 ∨
          (if cfg.reverse then (p.2, p.1) else p).2.length = 0) := by
        have := hgood 0 (Nat.succ_pos n)
        simpa [badLine] using this
      have h1 : n < rest.length := by simpa using hn
      have h2 : badLine cfg (rest.getD n ([], [])) := by simpa using hbad
      have h3 : ∀ m, m < n → ¬ badLine cfg (rest.getD m ([], [])) :=
        fun m hm => by simpa using hgood (m + 1) (by omega)
      simp only [runPass, List.getD_cons_succ]
      rw [if_neg hgd, ih _ n h1 h2 h3]
      show Except.error (st.lc + 1 + n + 1, rest.getD n ([], [])) =
        (Except.error (st.lc + (n + 1) + 1, rest.getD n ([], [])) :
          Except RunErr (PassResult α))
      rw [show st.lc + 1 + n + 1 = st.lc + (n + 1) + 1 by omega]

/-- C5: if some corpus line has an empty source or target side after the
reverse swap, and no earlier line does, then (provided at least one EM
iteration runs) the whole training run aborts with exit status 1, reporting
exactly that 1-based line number together with the offending line, and no
later line of the pass is processed (the pass result is the error, not a
state extended by further lines). -/
theorem empty_side_aborts (cfg : Config α) (corpus : List Line)
    (hit : 0 < cfg.iterations) (n : Nat) (hn : n < corpus.length)
    (hbad : badLine cfg (corpus.getD n ([], [])))
    (hgood : ∀ m, m < n → ¬ badLine cfg (corpus.getD m ([], []))) :
    runTrain cfg corpus = .error (n + 1, corpus.getD n ([], [])) := by
  obtain ⟨K, hK⟩ : ∃ K, cfg.iterations = K + 1 :=
    ⟨cfg.iterations - 1, (Nat.succ_pred_eq_of_pos hit).symm⟩
  have hpass : runPass cfg (0 == 0) ((0 : Nat) == cfg.iterations - 1) corpus
      (initPass (initTrain (α := α))) = .error (n + 1, corpus.getD n ([], [])) := by
    have := runPass_first_bad cfg (0 == 0) ((0 : Nat) == cfg.iterations - 1)
      corpus (initPass (initTrain (α := α))) n hn hbad hgood
    simpa [initPass, initTrain] using this
  rw [runTrain, hK, List.range_succ_eq_map]
  simp only [runIters, runIteration, hpass]

/-- C5 witness: the corpus whose single line has an empty target side aborts
with line number 1 and that line. -/
theorem empty_side_aborts_witness :
    runTrain qCfg [([1], [])] = .error (1, ([1], [])) :=
  empty_side_aborts qCfg [([1], [])] (by norm_num [qCfg]) 0 (by norm_num)
    (by norm_num [badLine, qCfg]) (fun m hm => absurd hm (Nat.not_lt_zero m))

/-! ### C9: the final iteration never mutates the translation table -/

lemma processPos_final_table (cfg : Config α) (src trg : List Word)
    (o : SentOut α) (j : Nat) :
    (processPos cfg true src trg o j).table = o.table := by
  simp only [processPos]
  split
  · split <;> rfl
  · next h => simp at h

lemma foldl_final_table (cfg : Config α) (src trg : List Word) :
    ∀ (l : List Nat) (o : SentOut α),
    (l.foldl (processPos cfg true src trg) o).table = o.table := by
  intro l
  induction l with
  | nil => intro o; rfl
  | cons a l ih =>
    intro o
    rw [List.foldl_cons, ih, processPos_final_table]

lemma processSentence_final_table (cfg : Config α) (t : TTable α)
    (vit : List (Word × Word)) (src trg : List Word) :
    (processSentence cfg true t vit src trg).table = t :=
  foldl_final_table cfg src trg (List.range trg.length) ⟨t, vit, 0, []⟩

lemma runPass_final_table (cfg : Config α) (i0 : Bool) :
    ∀ (cs : List Line) (st : PassResult α) (pr : PassResult α),
    runPass cfg i0 true cs st = .ok pr → pr.table = st.table := by
  intro cs
  induction cs with
  | nil =>
    intro st pr h
    simp only [runPass] at h
    cases h
    rfl
  | cons p rest ih =>
    intro st pr h
    simp only [runPass] at h
    by_cases hc : ((if cfg.reverse then (p.2, p.1) else p).1.length = 0 ∨
        (if cfg.reverse then (p.2, p.1) else p).2.length = 0)
    · rw [if_pos hc] at h; cases h
    · rw [if_neg hc] at h
      rw [ih _ pr h, processSentence_final_table]

/-- C9: on the final iteration the translation table is never mutated — a
final pass returns exactly the table it started from, the epoch-boundary
renormalization is skipped (`endOfPass` is the identity on the final
iteration), the iteration numbered ITERATIONS−1 leaves the driver table
untouched, and with ITERATIONS = 1 a successful run ends with the table
still empty, never incremented or normalized. -/
theorem final_iteration_table_frozen (cfg : Config α) (corpus : List Line) :
    (∀ (i0 : Bool) (st pr : PassResult α),
      runPass cfg i0 true corpus st = .ok pr → pr.table = st.table) ∧
    (∀ t : TTable α, endOfPass cfg true t = t) ∧
    (∀ (st : TrainState α) (o : IterOut α),
      runIteration cfg corpus (cfg.iterations - 1) st = .ok o →
      o.state.table = st.table) ∧
    (cfg.iterations = 1 → ∀ r : TrainResult α,
      runTrain cfg corpus = .ok r → r.state.table = emptyTTable) := by
  have hpass : ∀ (i0 : Bool) (st pr : PassResult α),
      runPass cfg i0 true corpus st = .ok pr → pr.table = st.table :=
    fun i0 => runPass_final_table cfg i0 corpus
  have hend : ∀ t : TTable α, endOfPass cfg true t = t := fun t => rfl
  have hiter : ∀ (st : TrainState α) (o : IterOut α),
      runIteration cfg corpus (cfg.iterations - 1) st = .ok o →
      o.state.table = st.table := by
    intro st o h
    simp only [runIteration, beq_self_eq_true] at h
    cases hp : runPass cfg ((cfg.iterations - 1) == 0) true corpus (initPass st) with
    | error e => rw [hp] at h; cases h
    | ok pr =>
      rw [hp] at h
      cases h
      show endOfPass cfg true pr.table = st.table
      rw [hend, hpass _ _ _ hp]
      rfl
  refine ⟨hpass, hend, hiter, ?_⟩
  intro h1 r hr
  rw [runTrain, h1] at hr
  have : List.range 1 = [0] := rfl
  rw [this] at hr
  simp only [runIters] at hr
  cases hi : runIteration cfg corpus 0 (initTrain (α := α)) with
  | error e => rw [hi] at hr; cases hr
  | ok o =>
    rw [hi] at hr
    cases hr
    have h0 : (0 : Nat) = cfg.iterations - 1 := by omega
    have := hiter initTrain o (by rw [← h0]; exact hi)
    simpa [initTrain] using this

/-- C9 witness: the concrete one-iteration run of `qCfg` on [([1], [2])]
succeeds with `qRun1`, whose table is still the empty table. -/
theorem final_iteration_table_frozen_witness :
    runTrain qCfg [([1], [2])] = .ok qRun1 ∧ qRun1.state.table = emptyTTable :=
  ⟨by norm_num [runTrain, runIters, runIteration, runPass, initPass, initTrain,
      processSentence, processPos, probs0, probsPos, sumOver, priorNull, priorAt,
      amaxRun, amaxInit, amaxStep, TTable.prob, lookup2, lookupW, floorProb,
      endOfPass, tokenOf, emptyTTable, qCfg, qRun1, List.range_succ],
   (final_iteration_table_frozen qCfg [([1], [2])]).2.2.2 rfl qRun1
     (by norm_num [runTrain, runIters, runIteration, runPass, initPass, initTrain,
        processSentence, processPos, probs0, probsPos, sumOver, priorNull, priorAt,
        amaxRun, amaxInit, amaxStep, TTable.prob, lookup2, lookupW, floorProb,
        endOfPass, tokenOf, emptyTTable, qCfg, qRun1, List.range_succ])⟩

/-! ### C7: the length statistics are fixed at the end of iteration 0 -/

lemma corpusLenRat_cons (cfg : Config α) (p : Line) (cs : List Line) :
    corpusLenRat cfg (p :: cs) =
      ((if cfg.reverse then (p.2, p.1) else p).2.length : α) /
        ((if cfg.reverse then (p.2, p.1) else p).1.length : α) +
      corpusLenRat cfg cs := by
  simp [corpusLenRat]

lemma runPass_lc_tot (cfg : Config α) (i0 f : Bool) :
    ∀ (cs : List Line) (st pr : PassResult α),
    runPass cfg i0 f cs st = .ok pr →
    pr.lc = st.lc + cs.length ∧
    pr.totLenRat = st.totLenRat + (if i0 = true then corpusLenRat cfg cs else 0) := by
  intro cs
  induction cs with
  | nil =>
    intro st pr h
    simp only [runPass] at h
    cases h
    refine ⟨rfl, ?_⟩
    cases i0 <;> simp [corpusLenRat]
  | cons p rest ih =>
    intro st pr h
    simp only [runPass] at h
    by_cases hc : ((if cfg.reverse then (p.2, p.1) else p).1.length = 0 ∨
        (if cfg.reverse then (p.2, p.1) else p).2.length = 0)
    · rw [if_pos hc] at h; cases h
    · rw [if_neg hc] at h
      obtain ⟨h1, h2⟩ := ih _ pr h
      refine ⟨by rw [h1]; show st.lc + 1 + rest.length = st.lc + (rest.length + 1); omega, ?_⟩
      rw [h2]
      show st.totLenRat +
          (if i0 = true then ((if cfg.reverse then (p.2, p.1) else p).2.length : α) /
            ((if cfg.reverse then (p.2, p.1) else p).1.length : α) else 0) +
          (if i0 = true then corpusLenRat cfg rest else 0) = _
      cases i0
      · simp
      · rw [corpusLenRat_cons]
        simp [add_assoc]

lemma runIteration_zero_stats (cfg : Config α) (corpus : List Line)
    (st : TrainState α) (o : IterOut α)
    (h : runIteration cfg corpus 0 st = .ok o) :
    o.state.totLenRat = st.totLenRat + corpusLenRat cfg corpus ∧
    o.state.mean = (st.totLenRat + corpusLenRat cfg corpus) / (corpus.length : α) := by
  simp only [runIteration] at h
  cases hp : runPass cfg ((0 : Nat) == 0) ((0 : Nat) == cfg.iterations - 1) corpus
      (initPass st) with
  | error e => rw [hp] at h; cases h
  | ok pr =>
    rw [hp] at h
    cases h
    obtain ⟨h1, h2⟩ := runPass_lc_tot cfg _ _ corpus (initPass st) pr hp
    have hlc : pr.lc = corpus.length := by simpa [initPass] using h1
    have htot : pr.totLenRat = st.totLenRat + corpusLenRat cfg corpus := by
      simpa [initPass] using h2
    exact ⟨htot, by simp [htot, hlc]⟩

lemma runIteration_pos_stats (cfg : Config α) (corpus : List Line) (i : Nat)
    (hi : i ≠ 0) (st : TrainState α) (o : IterOut α)
    (h : runIteration cfg corpus i st = .ok o) :
    o.state.totLenRat = st.totLenRat ∧ o.state.mean = st.mean := by
  simp only [runIteration] at h
  cases hp : runPass cfg (i == 0) (i == cfg.iterations - 1) corpus (initPass st) with
  | error e => rw [hp] at h; cases h
  | ok pr =>
    rw [hp] at h
    cases h
    obtain ⟨h1, h2⟩ := runPass_lc_tot cfg _ _ corpus (initPass st) pr hp
    have hb : (i == 0) = false := by simpa using hi
    rw [hb] at h2
    have htot : pr.totLenRat = st.totLenRat := by simpa [initPass] using h2
    exact ⟨htot, by simp [hi]⟩

lemma runIters_pos_stats (cfg : Config α) (corpus : List Line) :
    ∀ (l : List Nat), (∀ i ∈ l, i ≠ 0) → ∀ (r r' : TrainResult α),
    runIters cfg corpus l r = .ok r' →
    r'.state.totLenRat = r.state.totLenRat ∧ r'.state.mean = r.state.mean := by
  intro l
  induction l with
  | nil =>
    intro _ r r' h
    simp only [runIters] at h
    cases h
    exact ⟨rfl, rfl⟩
  | cons i rest ih =>
    intro hne r r' h
    simp only [runIters] at h
    cases hi : runIteration cfg corpus i r.state with
    | error e => rw [hi] at h; cases h
    | ok o =>
      rw [hi] at h
      obtain ⟨h1, h2⟩ := ih (fun x hx => hne x (List.mem_cons_of_mem _ hx)) _ r' h
      obtain ⟨k1, k2⟩ := runIteration_pos_stats cfg corpus i
        (hne i (List.mem_cons_self i rest)) r.state o hi
      exact ⟨h1.trans k1, h2.trans k2⟩

/-- C7: `tot_len_ratio` is accumulated only during the first iteration and
`mean_srclen_multiplier` is set exactly once, at the end of the first
iteration, to `tot_len_ratio` divided by the number of corpus lines; any
successful run with at least one iteration ends with exactly those values,
no matter how many later iterations run, and the test scorer scores every
held-out pair with exactly that fixed multiplier. -/
theorem mean_srclen_multiplier_fixed (cfg : Config α) (corpus : List Line)
    (hit : 1 ≤ cfg.iterations) (r : TrainResult α)
    (h : runTrain cfg corpus = .ok r) (testset : List Line) :
    r.state.totLenRat = corpusLenRat cfg corpus ∧
    r.state.mean = corpusLenRat cfg corpus / (corpus.length : α) ∧
    scoreTestset cfg r.state.table r.state.mean testset =
      testset.map (testSentLogProb cfg r.state.table
        (corpusLenRat cfg corpus / (corpus.length : α))) := by
  obtain ⟨K, hK⟩ : ∃ K, cfg.iterations = K + 1 :=
    ⟨cfg.iterations - 1, (Nat.succ_pred_eq_of_pos hit).symm⟩
  rw [runTrain, hK, List.range_succ_eq_map] at h
  simp only [runIters] at h
  cases hi : runIteration cfg corpus 0 (initTrain (α := α)) with
  | error e => rw [hi] at h; cases h
  | ok o =>
    rw [hi] at h
    obtain ⟨z1, z2⟩ := runIteration_zero_stats cfg corpus initTrain o hi
    have hz : (initTrain (α := α)).totLenRat = 0 := rfl
    rw [hz, zero_add] at z1 z2
    obtain ⟨k1, k2⟩ := runIters_pos_stats cfg corpus ((List.range K).map Nat.succ)
      (by
        intro i hmem
        rcases List.mem_map.1 hmem with ⟨x, _, rfl⟩
        exact Nat.succ_ne_zero x) _ r h
    have htot : r.state.totLenRat = corpusLenRat cfg corpus := by
      rw [k1]; exact z1
    have hmean : r.state.mean = corpusLenRat cfg corpus / (corpus.length : α) := by
      rw [k2]; exact z2
    exact ⟨htot, hmean, by rw [scoreTestset, hmean]⟩

/-- C7 witness: the concrete one-iteration run of `qCfg` on [([1], [2])] has
`tot_len_ratio = 1` and `mean_srclen_multiplier = 1 = (2/2 + ...)/lc`, and the
scorer for any testset uses exactly this multiplier. -/
theorem mean_srclen_multiplier_fixed_witness :
    qRun1.state.mean = corpusLenRat qCfg [([1], [2])] / (([([1], [2])] : List Line).length : ℚ) :=
  (mean_srclen_multiplier_fixed qCfg [([1], [2])] (by norm_num [qCfg]) qRun1
    (by norm_num [runTrain, runIters, runIteration, runPass, initPass, initTrain,
      processSentence, processPos, probs0, probsPos, sumOver, priorNull, priorAt,
      amaxRun, amaxInit, amaxStep, TTable.prob, lookup2, lookupW, floorProb,
      endOfPass, tokenOf, emptyTTable, qCfg, qRun1, List.range_succ]) []).2.1

/-! ### C8: the final-iteration argmax -/

lemma amaxFold_char (st0 : AMax α) (v : Nat → α) (w : Nat → Word) :
    ∀ n : Nat,
    ((List.range n).foldl (fun st k => amaxStep st (k + 1) (v k) (w k)) st0 = st0 ∧
      ∀ k < n, v k ≤ st0.max_p) ∨
    (∃ k, k < n ∧
      (List.range n).foldl (fun st k => amaxStep st (k + 1) (v k) (w k)) st0 =
        ⟨w k, v k, ((k + 1 : Nat) : Int)⟩ ∧
      st0.max_p < v k ∧ (∀ m < k, v m < v k) ∧ (∀ m < n, v m ≤ v k)) := by
  intro n
  induction n with
  | zero => exact Or.inl ⟨rfl, fun k hk => absurd hk (Nat.not_lt_zero k)⟩
  | succ n ih =>
    rw [List.range_succ, List.foldl_append, List.foldl_cons, List.foldl_nil]
    rcases ih with ⟨he, hb⟩ | ⟨k, hk, he, h1, h2, h3⟩
    · rw [he]
      by_cases hvn : st0.max_p < v n
      · refine Or.inr ⟨n, Nat.lt_succ_self n, ?_, hvn, ?_, ?_⟩
        · simp only [amaxStep]
          rw [if_pos hvn]
        · exact fun m hm => lt_of_le_of_lt (hb m hm) hvn
        · intro m hm
          rcases Nat.lt_succ_iff_lt_or_eq.1 hm with h | h
          · exact le_of_lt (lt_of_le_of_lt (hb m h) hvn)
          · exact le_of_eq (congrArg v h)
      · refine Or.inl ⟨?_, ?_⟩
        · simp only [amaxStep]
          rw [if_neg hvn]
        · intro m hm
          rcases Nat.lt_succ_iff_lt_or_eq.1 hm with h | h
          · exact hb m h
          · rw [h]; exact not_lt.1 hvn
    · rw [he]
      by_cases hvn : v k < v n
      · refine Or.inr ⟨n, Nat.lt_succ_self n, ?_, h1.trans hvn, ?_, ?_⟩
        · simp only [amaxStep]
          rw [if_pos hvn]
        · exact fun m hm => lt_of_le_of_lt (h3 m hm) hvn
        · intro m hm
          rcases Nat.lt_succ_iff_lt_or_eq.1 hm with h | h
          · exact le_of_lt (lt_of_le_of_lt (h3 m h) hvn)
          · exact le_of_eq (congrArg v h)
      · refine Or.inr ⟨k, hk.trans (Nat.lt_succ_self n), ?_, h1, h2, ?_⟩
        · simp only [amaxStep]
          rw [if_neg hvn]
        · intro m hm
          rcases Nat.lt_succ_iff_lt_or_eq.1 hm with h | h
          · exact h3 m h
          · rw [h]; exact not_lt.1 hvn

/-- C8: the final-iteration argmax (lines 146-160) either keeps the seeded
initial candidate — which, when `use_null` holds, is the NULL word with value
`probs[0]` and index 0, installed before any real source position is examined
— because no real candidate strictly exceeds it; or it returns the earliest
real source position k+1 whose probability strictly exceeds the initial value
and every earlier candidate, and is not exceeded by any other: a later
candidate replaces the current best only when strictly greater, so the first
index wins all ties. -/
theorem final_argmax_first_index_wins (cfg : Config α) (src : List Word)
    (ps : List α) (p0 : α) :
    (cfg.useNull = true → amaxInit cfg p0 = ⟨kNULL, p0, 0⟩) ∧
    ((amaxRun cfg src ps p0 = amaxInit cfg p0 ∧
       ∀ k < src.length, ps.getD k 0 ≤ (amaxInit cfg p0).max_p) ∨
     (∃ k, k < src.length ∧
       amaxRun cfg src ps p0 = ⟨src.getD k 0, ps.getD k 0, ((k + 1 : Nat) : Int)⟩ ∧
       (amaxInit cfg p0).max_p < ps.getD k 0 ∧
       (∀ m < k, ps.getD m 0 < ps.getD k 0) ∧
       (∀ m < src.length, ps.getD m 0 ≤ ps.getD k 0))) := by
  constructor
  · intro h
    simp [amaxInit, h]
  · exact amaxFold_char (amaxInit cfg p0) (fun k => ps.getD k 0)
      (fun k => src.getD k 0) src.length

/-- C8 witness: with `use_null` on, the NULL candidate is installed as initial
candidate with value `probs[0]` at a concrete configuration. -/
theorem final_argmax_first_index_wins_witness :
    amaxInit qCfg (3 : ℚ) = ⟨kNULL, 3, 0⟩ :=
  (final_argmax_first_index_wins qCfg [5, 7] [3, 3] 3).1 rfl

/-! ### C6: every position sum is positive -/

lemma lookupW_mem {β : Type} : ∀ (m : List (Word × β)) (k : Word) (v : β),
    lookupW m k = some v → (k, v) ∈ m := by
  intro m
  induction m with
  | nil => intro k v h; cases h
  | cons q rest ih =>
    intro k v h
    simp only [lookupW] at h
    by_cases hk : q.1 = k
    · rw [if_pos hk] at h
      cases h
      rw [← hk]
      exact List.mem_cons_self q rest
    · rw [if_neg hk] at h
      exact List.mem_cons_of_mem q (ih k v h)

lemma lookup2_mem (m : W2W2D α) (e f : Word) (v : α)
    (h : lookup2 m e f = some v) :
    ∃ row, (e, row) ∈ m ∧ (f, v) ∈ row := by
  unfold lookup2 at h
  cases hl : lookupW m e with
  | none => rw [hl] at h; cases h
  | some row =>
    rw [hl] at h
    exact ⟨row, lookupW_mem m e row hl, lookupW_mem row f v h⟩

lemma floorProb_pos : (0 : α) < floorProb := by
  rw [floorProb]
  norm_num

lemma prob_pos (t : TTable α) (ht : posVals t) (e f : Word) :
    0 < t.prob e f := by
  unfold TTable.prob
  cases hl : lookup2 t.ttable e f with
  | none => exact floorProb_pos
  | some v =>
    obtain ⟨row, hrow, hv⟩ := lookup2_mem t.ttable e f v hl
    exact ht (e, row) hrow (f, v) hv

lemma prob_nonneg (t : TTable α) (ht : nonnegVals t) (e f : Word) :
    0 ≤ t.prob e f := by
  unfold TTable.prob
  cases hl : lookup2 t.ttable e f with
  | none => exact le_of_lt floorProb_pos
  | some v =>
    obtain ⟨row, hrow, hv⟩ := lookup2_mem t.ttable e f v hl
    exact ht (e, row) hrow (f, v) hv

lemma priorAt_pos (cfg : Config α) (hexp : ∀ x, 0 < cfg.expF x)
    (hfd : cfg.favorDiagonal = true → 0 ≤ cfg.probAlignNull ∧ cfg.probAlignNull < 1)
    (I J j k : Nat) (hI : 0 < I) : 0 < priorAt cfg I J j k := by
  have hIc : (0 : α) < (I : α) := by exact_mod_cast hI
  unfold priorAt
  by_cases h : cfg.favorDiagonal = true
  · rw [if_pos h]
    refine div_pos (hexp _) (div_pos (azRaw_pos cfg hexp I J j hI) ?_)
    have := (hfd h).2
    linarith
  · rw [if_neg h]
    refine div_pos one_pos ?_
    cases hu : cfg.useNull
    · simpa using hIc
    · show (0 : α) < (I : α) + 1
      linarith

lemma priorNull_nonneg (cfg : Config α)
    (hfd : cfg.favorDiagonal = true → 0 ≤ cfg.probAlignNull ∧ cfg.probAlignNull < 1)
    (I : Nat) : 0 ≤ priorNull cfg I := by
  unfold priorNull
  by_cases h : cfg.favorDiagonal = true
  · rw [if_pos h]
    exact (hfd h).1
  · rw [if_neg h]
    have : (0 : α) ≤ (I : α) := Nat.cast_nonneg I
    refine le_of_lt (div_pos one_pos ?_)
    linarith

lemma probs0_nonneg (cfg : Config α) (t : TTable α) (ht : nonnegVals t)
    (hfd : cfg.favorDiagonal = true → 0 ≤ cfg.probAlignNull ∧ cfg.probAlignNull < 1)
    (src : List Word) (f : Word) : 0 ≤ probs0 cfg t src f := by
  unfold probs0
  by_cases h : cfg.useNull = true
  · rw [if_pos h]
    exact mul_nonneg (prob_nonneg t ht kNULL f) (priorNull_nonneg cfg hfd src.length)
  · rw [if_neg h]

/-- C6: for every valid (nonempty-source) sentence pair, every target word
and every target position, the accumulated `sum` over alignment candidates is
strictly positive whenever the probability table stores only positive values
(as every table reached in a run does: it is empty at the start, `prob`
returns the positive floor 1e-9 on every miss, and normalization of positive
counts keeps entries positive), the exponential is positive and
`prob_align_null` lies in [0, 1) when `favor_diagonal` is set.  Hence the
posterior divisions `probs[i]/sum` and the likelihood term `log(sum)` are
well-defined. -/
theorem position_sum_pos (cfg : Config α) (hexp : ∀ x, 0 < cfg.expF x)
    (hfd : cfg.favorDiagonal = true → 0 ≤ cfg.probAlignNull ∧ cfg.probAlignNull < 1)
    (t : TTable α) (ht : posVals t) (src : List Word) (hsrc : 0 < src.length)
    (f : Word) (J j : Nat) : 0 < sumOver cfg t src f J j := by
  have htn : nonnegVals t := fun p hp q hq => le_of_lt (ht p hp q hq)
  refine add_pos_of_nonneg_of_pos (probs0_nonneg cfg t htn hfd src f) ?_
  refine List.sum_pos _ (fun x hx => ?_) ?_
  · rcases List.mem_map.1 hx with ⟨k, hk, rfl⟩
    exact mul_pos (prob_pos t ht _ f) (priorAt_pos cfg hexp hfd src.length J j k hsrc)
  · simp only [probsPos, ne_eq, List.map_eq_nil_iff, List.range_eq_nil]
    omega

/-- C6 witness: the sum is positive at a concrete configuration (positive
constant exponential), the empty table — where `prob` falls back to the
positive floor everywhere — and the pair ([1], [2]). -/
theorem position_sum_pos_witness :
    0 < sumOver qCfgExpOne emptyTTable [1] 2 1 0 :=
  position_sum_pos qCfgExpOne (fun _ => one_pos)
    (fun h => Bool.noConfusion h) emptyTTable
    (fun p hp => absurd hp (List.not_mem_nil p)) [1] (by norm_num) 2 1 0

/-! ### C10: with no NULL word every target position emits a token -/

lemma getD_map_range (g : Nat → α) (n k : Nat) :
    ((List.range n).map g).getD k 0 = if k < n then g k else 0 := by
  by_cases h : k < n
  · rw [if_pos h]
    rw [List.getD_eq_getElem?_getD]
    simp [List.getElem?_map, List.getElem?_range h]
  · rw [if_neg h]
    rw [List.getD_eq_getElem?_getD]
    have hlen : ((List.range n).map g).length ≤ k := by
      simpa using le_of_not_lt h
    rw [List.getElem?_eq_none hlen]
    rfl

lemma probsPos_getD_nonneg (cfg : Config α) (hexp : ∀ x, 0 < cfg.expF x)
    (hfd : cfg.favorDiagonal = true → 0 ≤ cfg.probAlignNull ∧ cfg.probAlignNull < 1)
    (t : TTable α) (ht : nonnegVals t) (src : List Word) (hsrc : 0 < src.length)
    (f : Word) (J j k : Nat) :
    0 ≤ (probsPos cfg t src f J j).getD k 0 := by
  unfold probsPos
  rw [getD_map_range]
  by_cases h : k < src.length
  · rw [if_pos h]
    exact mul_nonneg (prob_nonneg t ht _ f)
      (le_of_lt (priorAt_pos cfg hexp hfd src.length J j k hsrc))
  · rw [if_neg h]

lemma amax_index_ge_one (cfg : Config α) (hnull : cfg.useNull = false)
    (src : List Word) (hsrc : 0 < src.length) (ps : List α) (p0 : α)
    (hnn : 0 ≤ ps.getD 0 0) :
    1 ≤ (amaxRun cfg src ps p0).max_index := by
  have hinit : amaxInit cfg p0 = ⟨0, -1, -1⟩ := by
    simp [amaxInit, hnull]
  rcases amaxFold_char (amaxInit cfg p0) (fun k => ps.getD k 0)
      (fun k => src.getD k 0) src.length with ⟨he, hb⟩ | ⟨k, _, he, _⟩
  · exfalso
    have h0 := hb 0 hsrc
    rw [hinit] at h0
    have : (0 : α) ≤ -1 := le_trans hnn h0
    norm_num at this
  · show 1 ≤ ((List.range src.length).foldl
      (fun st k => amaxStep st (k + 1) (ps.getD k 0) (src.getD k 0))
      (amaxInit cfg p0)).max_index
    rw [he]
    show (1 : Int) ≤ ((k + 1 : Nat) : Int)
    omega

lemma processPos_final_toks_len (cfg : Config α) (hexp : ∀ x, 0 < cfg.expF x)
    (hnull : cfg.useNull = false) (hw : cfg.writeAlignments = true)
    (hh : cfg.hideTrainingAlignments = false)
    (hfd : cfg.favorDiagonal = true → 0 ≤ cfg.probAlignNull ∧ cfg.probAlignNull < 1)
    (t : TTable α) (ht : nonnegVals t) (src trg : List Word)
    (hsrc : 0 < src.length) (o : SentOut α) (hot : o.table = t) (j : Nat) :
    (processPos cfg true src trg o j).toks.length = o.toks.length + 1 := by
  have hidx : 1 ≤ (amaxRun cfg src
      (probsPos cfg t src (trg.getD j 0) trg.length j)
      (probs0 cfg t src (trg.getD j 0))).max_index :=
    amax_index_ge_one cfg hnull src hsrc _ _
      (probsPos_getD_nonneg cfg hexp hfd t ht src hsrc (trg.getD j 0) trg.length j 0)
  have hd : decide (0 < (amaxRun cfg src
      (probsPos cfg t src (trg.getD j 0) trg.length j)
      (probs0 cfg t src (trg.getD j 0))).max_index) = true :=
    decide_eq_true (lt_of_lt_of_le zero_lt_one hidx)
  simp only [processPos, hot]
  rw [if_pos (show (cfg.addViterbi || cfg.writeAlignments) = true by
    rw [hw]; exact Bool.or_true cfg.addViterbi)]
  show (o.toks ++ _).length = o.toks.length + 1
  rw [hw, hh, hd]
  simp

lemma foldl_final_toks_len (cfg : Config α) (hexp : ∀ x, 0 < cfg.expF x)
    (hnull : cfg.useNull = false) (hw : cfg.writeAlignments = true)
    (hh : cfg.hideTrainingAlignments = false)
    (hfd : cfg.favorDiagonal = true → 0 ≤ cfg.probAlignNull ∧ cfg.probAlignNull < 1)
    (t : TTable α) (ht : nonnegVals t) (src trg : List Word)
    (hsrc : 0 < src.length) :
    ∀ (l : List Nat) (o : SentOut α), o.table = t →
    ((l.foldl (processPos cfg true src trg) o).toks.length = o.toks.length + l.length) := by
  intro l
  induction l with
  | nil => intro o _; simp
  | cons a l ih =>
    intro o hot
    rw [List.foldl_cons]
    have hot2 : (processPos cfg true src trg o a).table = t := by
      rw [processPos_final_table, hot]
    rw [ih _ hot2,
      processPos_final_toks_len cfg hexp hnull hw hh hfd t ht src trg hsrc o hot a]
    show o.toks.length + 1 + l.length = o.toks.length + (l.length + 1)
    omega

/-- C10: when `no_null_word` is set (`use_null = false`), alignments are
written and not hidden, the final-iteration argmax always selects a real
source position (`max_index ≥ 1`, since the initial best is −1 and, the
stored table values being nonnegative and the priors nonnegative, every
`probs[i] ≥ 0`), so every target position emits exactly one token and the
alignment line of each sentence contains exactly |trg| tokens. -/
theorem no_null_full_alignment (cfg : Config α) (hexp : ∀ x, 0 < cfg.expF x)
    (hnull : cfg.useNull = false) (hw : cfg.writeAlignments = true)
    (hh : cfg.hideTrainingAlignments = false)
    (hfd : cfg.favorDiagonal = true → 0 ≤ cfg.probAlignNull ∧ cfg.probAlignNull < 1)
    (t : TTable α) (ht : nonnegVals t) (vit : List (Word × Word))
    (src trg : List Word) (hsrc : 0 < src.length) :
    (∀ (f : Word) (j : Nat),
      1 ≤ (amaxRun cfg src (probsPos cfg t src f trg.length j)
            (probs0 cfg t src f)).max_index) ∧
    (processSentence cfg true t vit src trg).toks.length = trg.length := by
  constructor
  · intro f j
    exact amax_index_ge_one cfg hnull src hsrc _ _
      (probsPos_getD_nonneg cfg hexp hfd t ht src hsrc f trg.length j 0)
  · rw [processSentence,
      foldl_final_toks_len cfg hexp hnull hw hh hfd t ht src trg hsrc
        (List.range trg.length) ⟨t, vit, 0, []⟩ rfl]
    simp

/-- C10 witness: the concrete sentence pair ([1], [2, 3]) under a
`no_null_word`, alignment-writing configuration emits exactly 2 tokens. -/
theorem no_null_full_alignment_witness :
    (processSentence { qCfgExpOne with useNull := false, writeAlignments := true }
      true emptyTTable [] [1] [2, 3]).toks.length = 2 :=
  (no_null_full_alignment { qCfgExpOne with useNull := false, writeAlignments := true }
    (fun _ => one_pos) rfl rfl rfl (fun h => Bool.noConfusion h)
    emptyTTable (fun p hp => absurd hp (List.not_mem_nil p)) [] [1] [2, 3]
    (by norm_num)).2

/-! ### C1: membership in the parameter dump -/

lemma paramDump_eq_flatten (cfg : Config α) (t : TTable α)
    (vit : List (Word × Word)) :
    paramDump cfg t vit = (t.ttable.map fun p => dumpRow cfg vit p.1 p.2).flatten := by
  suffices h : ∀ (l : List (Word × W2D α)) (acc : List (Word × Word × α)),
      l.foldl (fun a p => a ++ dumpRow cfg vit p.1 p.2) acc =
        acc ++ (l.map fun p => dumpRow cfg vit p.1 p.2).flatten by
    simpa using h t.ttable []
  intro l
  induction l with
  | nil => intro acc; simp
  | cons p rest ih => intro acc; simp [ih]

lemma mem_dumpRow_iff (cfg : Config α) (vit : List (Word × Word)) (e : Word)
    (cpd : W2D α) (x : Word × Word × α) :
    x ∈ dumpRow cfg vit e cpd ↔
    ∃ q ∈ cpd, (rowMax cpd * cfg.beamThreshold < q.2 ∨ (e, q.1) ∈ vit) ∧
      x = (e, q.1, cfg.logF q.2) := by
  unfold dumpRow
  rw [List.mem_map]
  constructor
  · rintro ⟨q, hq, rfl⟩
    rw [List.mem_filter] at hq
    refine ⟨q, hq.1, ?_, rfl⟩
    simpa [Bool.or_eq_true, decide_eq_true_eq] using hq.2
  · rintro ⟨q, hq, hcond, rfl⟩
    exact ⟨q, List.mem_filter.2
      ⟨hq, by simpa [Bool.or_eq_true, decide_eq_true_eq] using hcond⟩, rfl⟩

lemma mem_iff_lookupW {β : Type} :
    ∀ (m : List (Word × β)), (m.map Prod.fst).Nodup →
    ∀ (k : Word) (v : β), ((k, v) ∈ m ↔ lookupW m k = some v) := by
  intro m
  induction m with
  | nil => intro _ k v; simp [lookupW]
  | cons q rest ih =>
    intro hnd k v
    have hnd2 : (q.1 :: rest.map Prod.fst).Nodup := by simpa using hnd
    have hnc := List.nodup_cons.1 hnd2
    constructor
    · intro hm
      rcases List.mem_cons.1 hm with h | h
      · rw [← h]
        simp [lookupW]
      · have hk : q.1 ≠ k := by
          intro he
          exact hnc.1 (he ▸ List.mem_map.2 ⟨(k, v), h, rfl⟩)
        simp only [lookupW, if_neg hk]
        exact (ih hnc.2 k v).1 h
    · exact lookupW_mem _ k v

/-- C1 amended: the parameter dump contains a line for (e, f) if and only if
(e, f) has an entry w in the learned probability table AND either
w > max_f T[e][·] · BEAM_THRESHOLD or (e, f) is in the Viterbi set; in
particular every Viterbi pair that is present in the table survives pruning,
but a Viterbi pair absent from the table (as happens with ITERATIONS = 1,
when the table is never populated) is not dumped, because the dump iterates
the table only. -/
theorem param_dump_membership (cfg : Config α) (t : TTable α)
    (vit : List (Word × Word))
    (hnd : (t.ttable.map Prod.fst).Nodup)
    (hrows : ∀ p ∈ t.ttable, (p.2.map Prod.fst).Nodup) :
    (∀ e f : Word,
      (∃ v, (e, f, v) ∈ paramDump cfg t vit) ↔
      (∃ row w, lookupW t.ttable e = some row ∧ lookupW row f = some w ∧
        (rowMax row * cfg.beamThreshold < w ∨ (e, f) ∈ vit))) ∧
    (∀ e f w, lookup2 t.ttable e f = some w → (e, f) ∈ vit →
      ∃ v, (e, f, v) ∈ paramDump cfg t vit) := by
  have hmain : ∀ e f : Word,
      (∃ v, (e, f, v) ∈ paramDump cfg t vit) ↔
      (∃ row w, lookupW t.ttable e = some row ∧ lookupW row f = some w ∧
        (rowMax row * cfg.beamThreshold < w ∨ (e, f) ∈ vit)) := by
    intro e f
    constructor
    · rintro ⟨v, hv⟩
      rw [paramDump_eq_flatten, List.mem_flatten] at hv
      obtain ⟨l, hl, hx⟩ := hv
      rw [List.mem_map] at hl
      obtain ⟨p, hp, rfl⟩ := hl
      rw [mem_dumpRow_iff] at hx
      obtain ⟨q, hq, hcond, heq⟩ := hx
      have he : p.1 = e := (congrArg Prod.fst heq).symm
      have hf : q.1 = f := (congrArg (fun y => y.2.1) heq).symm
      refine ⟨p.2, q.2, ?_, ?_, ?_⟩
      · rw [← he]
        exact (mem_iff_lookupW t.ttable hnd p.1 p.2).1 (by simpa using hp)
      · rw [← hf]
        exact (mem_iff_lookupW p.2 (hrows p hp) q.1 q.2).1 (by simpa using hq)
      · rw [← he, ← hf]
        exact hcond
    · rintro ⟨row, w, hrow, hw, hcond⟩
      have hpmem : (e, row) ∈ t.ttable := lookupW_mem _ e row hrow
      have hqmem : (f, w) ∈ row := lookupW_mem _ f w hw
      refine ⟨cfg.logF w, ?_⟩
      rw [paramDump_eq_flatten, List.mem_flatten]
      refine ⟨dumpRow cfg vit e row, List.mem_map.2 ⟨(e, row), hpmem, rfl⟩, ?_⟩
      rw [mem_dumpRow_iff]
      exact ⟨(f, w), hqmem, hcond, rfl⟩
  refine ⟨hmain, ?_⟩
  intro e f w hl hv
  refine (hmain e f).2 ?_
  unfold lookup2 at hl
  cases hr : lookupW t.ttable e with
  | none => rw [hr] at hl; cases hl
  | some row =>
    rw [hr] at hl
    exact ⟨row, w, rfl, hl, Or.inr hv⟩

/-- C1 amended witness: for the one-row table T[1][2] = 1/2 and an empty
Viterbi set, the dump contains a line for (1, 2), since 1/2 survives the beam
1/2 · 1/10000. -/
theorem param_dump_membership_witness :
    ∃ v, ((1 : Word), (2 : Word), v) ∈ paramDump qCfg qTab [] :=
  ((param_dump_membership qCfg qTab []
      (by simp [qTab])
      (by intro p hp; simp [qTab] at hp; rw [hp]; simp)).1 1 2).2
    ⟨[(2, 1 / 2)], 1 / 2, rfl, rfl, Or.inl (by norm_num [rowMax, qCfg])⟩

/-- C1 counterexample: with `output_parameters` set, `no_add_viterbi` off and
ITERATIONS = 1, the run on the corpus [([1], [2])] records the pair
(kNULL, 2) in the Viterbi set on the final (= first) iteration, yet the
parameter dump emitted after training is empty — the dump iterates the
probability table, which was never populated — so the dump does not contain a
line for every pair of the Viterbi set, contradicting the claimed
equivalence. -/
theorem param_dump_misses_viterbi_pair :
    runTrain qCfg [([1], [2])] = .ok qRun1 ∧
    (kNULL, 2) ∈ qRun1.state.vit ∧
    runProgramDump qCfg [([1], [2])] = .ok ([] : List (Word × Word × ℚ)) := by
  have hrun : runTrain qCfg [([1], [2])] = .ok qRun1 := by
    norm_num [runTrain, runIters, runIteration, runPass, initPass, initTrain,
      processSentence, processPos, probs0, probsPos, sumOver, priorNull, priorAt,
      amaxRun, amaxInit, amaxStep, TTable.prob, lookup2, lookupW, floorProb,
      endOfPass, tokenOf, emptyTTable, qCfg, qRun1, List.range_succ]
  refine ⟨hrun, by simp [qRun1, kNULL], ?_⟩
  rw [runProgramDump, hrun]
  simp [paramDump, qRun1, emptyTTable]

/-! ### C4: the reverse round-trip -/

lemma probs0_rev (cfg : Config α) (b : Bool) (t : TTable α) (src : List Word)
    (f : Word) : probs0 { cfg with reverse := b } t src f = probs0 cfg t src f := rfl

lemma probsPos_rev (cfg : Config α) (b : Bool) (t : TTable α) (src : List Word)
    (f : Word) (J j : Nat) :
    probsPos { cfg with reverse := b } t src f J j = probsPos cfg t src f J j := rfl

lemma sumOver_rev (cfg : Config α) (b : Bool) (t : TTable α) (src : List Word)
    (f : Word) (J j : Nat) :
    sumOver { cfg with reverse := b } t src f J j = sumOver cfg t src f J j := rfl

lemma amaxRun_rev (cfg : Config α) (b : Bool) (src : List Word) (ps : List α)
    (p0 : α) : amaxRun { cfg with reverse := b } src ps p0 = amaxRun cfg src ps p0 := rfl

lemma logF_rev (cfg : Config α) (b : Bool) :
    ({ cfg with reverse := b } : Config α).logF = cfg.logF := rfl

lemma addViterbi_rev (cfg : Config α) (b : Bool) :
    ({ cfg with reverse := b } : Config α).addViterbi = cfg.addViterbi := rfl

lemma writeAlignments_rev (cfg : Config α) (b : Bool) :
    ({ cfg with reverse := b } : Config α).writeAlignments = cfg.writeAlignments := rfl

lemma hideTA_rev (cfg : Config α) (b : Bool) :
    ({ cfg with reverse := b } : Config α).hideTrainingAlignments
      = cfg.hideTrainingAlignments := rfl

lemma useNull_rev (cfg : Config α) (b : Bool) :
    ({ cfg with reverse := b } : Config α).useNull = cfg.useNull := rfl

lemma iterations_rev (cfg : Config α) (b : Bool) :
    ({ cfg with reverse := b } : Config α).iterations = cfg.iterations := rfl

lemma tokenOf_rev (cfg : Config α) (j : Nat) (idx : Int) :
    tokenOf { cfg with reverse := true } j idx =
      Prod.swap (tokenOf { cfg with reverse := false } j idx) := rfl

lemma mirrorSent_table (o : SentOut α) : (mirrorSent o).table = o.table := rfl

lemma mirrorSent_vit (o : SentOut α) : (mirrorSent o).vit = o.vit := rfl

lemma mirrorSent_like (o : SentOut α) : (mirrorSent o).like = o.like := rfl

lemma mirrorSent_toks (o : SentOut α) :
    (mirrorSent o).toks = o.toks.map Prod.swap := rfl

lemma processPos_mirror (cfg : Config α) (final : Bool) (src trg : List Word)
    (o : SentOut α) (j : Nat) :
    processPos { cfg with reverse := true } final src trg (mirrorSent o) j =
      mirrorSent (processPos { cfg with reverse := false } final src trg o j) := by
  cases final
  · rfl
  · simp only [processPos, probs0_rev, probsPos_rev, sumOver_rev, amaxRun_rev,
      logF_rev, addViterbi_rev, writeAlignments_rev, hideTA_rev,
      mirrorSent_table, mirrorSent_vit, mirrorSent_like, mirrorSent_toks]
    split_ifs <;> first
    | rfl
    | simp [mirrorSent, List.map_append, tokenOf_rev]

lemma foldl_mirror (cfg : Config α) (final : Bool) (src trg : List Word) :
    ∀ (l : List Nat) (o : SentOut α),
    l.foldl (processPos { cfg with reverse := true } final src trg) (mirrorSent o) =
      mirrorSent (l.foldl (processPos { cfg with reverse := false } final src trg) o) := by
  intro l
  induction l with
  | nil => intro o; rfl
  | cons a l ih =>
    intro o
    rw [List.foldl_cons, List.foldl_cons, processPos_mirror, ih]

lemma processSentence_mirror (cfg : Config α) (final : Bool) (t : TTable α)
    (vit : List (Word × Word)) (src trg : List Word) :
    processSentence { cfg with reverse := true } final t vit src trg =
      mirrorSent (processSentence { cfg with reverse := false } final t vit src trg) :=
  foldl_mirror cfg final src trg (List.range trg.length) ⟨t, vit, 0, []⟩

lemma reverse_rev_true (cfg : Config α) :
    ({ cfg with reverse := true } : Config α).reverse = true := rfl

lemma reverse_rev_false (cfg : Config α) :
    ({ cfg with reverse := false } : Config α).reverse = false := rfl

lemma runPass_cons_bad (cfg : Config α) (i0 final : Bool) (p : Line)
    (rest : List Line) (st : PassResult α)
    (hc : (if cfg.reverse then (p.2, p.1) else p).1.length = 0 ∨
          (if cfg.reverse then (p.2, p.1) else p).2.length = 0) :
    runPass cfg i0 final (p :: rest) st = .error (st.lc + 1, p) := by
  simp only [runPass]
  rw [if_pos hc]

lemma runPass_cons_ok (cfg : Config α) (i0 final : Bool) (p : Line)
    (rest : List Line) (st : PassResult α)
    (hc : ¬((if cfg.reverse then (p.2, p.1) else p).1.length = 0 ∨
            (if cfg.reverse then (p.2, p.1) else p).2.length = 0)) :
    runPass cfg i0 final (p :: rest) st = runPass cfg i0 final rest
      { table := (processSentence cfg final st.table st.vit
          (if cfg.reverse then (p.2, p.1) else p).1
          (if cfg.reverse then (p.2, p.1) else p).2).table,
        vit := (processSentence cfg final st.table st.vit
          (if cfg.reverse then (p.2, p.1) else p).1
          (if cfg.reverse then (p.2, p.1) else p).2).vit,
        like := st.like + (processSentence cfg final st.table st.vit
          (if cfg.reverse then (p.2, p.1) else p).1
          (if cfg.reverse then (p.2, p.1) else p).2).like,
        perPair := st.perPair ++ [(processSentence cfg final st.table st.vit
          (if cfg.reverse then (p.2, p.1) else p).1
          (if cfg.reverse then (p.2, p.1) else p).2).like],
        alignLines := st.alignLines ++
          (if cfg.writeAlignments && final && !cfg.hideTrainingAlignments
           then [(processSentence cfg final st.table st.vit
             (if cfg.reverse then (p.2, p.1) else p).1
             (if cfg.reverse then (p.2, p.1) else p).2).toks] else []),
        totLenRat := st.totLenRat + (if i0 then
          ((if cfg.reverse then (p.2, p.1) else p).2.length : α) /
          ((if cfg.reverse then (p.2, p.1) else p).1.length : α) else 0),
        denom := st.denom + ((if cfg.reverse then (p.2, p.1) else p).2.length : α),
        lc := st.lc + 1 } := by
  simp only [runPass]
  rw [if_neg hc]

lemma runPass_mirror (cfg : Config α) (i0 final : Bool) :
    ∀ (cs : List Line) (st : PassResult α),
    runPass { cfg with reverse := true } i0 final cs (mirrorPass st) =
      mirrorPassExc (runPass { cfg with reverse := false } i0 final
        (cs.map Prod.swap) st) := by
  intro cs
  induction cs with
  | nil => intro st; rfl
  | cons p rest ih =>
    intro st
    rw [List.map_cons]
    by_cases hc : (p.2.length = 0 ∨ p.1.length = 0)
    · rw [runPass_cons_bad { cfg with reverse := true } i0 final p rest
          (mirrorPass st) hc,
        runPass_cons_bad { cfg with reverse := false } i0 final (Prod.swap p)
          (rest.map Prod.swap) st hc]
      rfl
    · rw [runPass_cons_ok { cfg with reverse := true } i0 final p rest
          (mirrorPass st) hc,
        runPass_cons_ok { cfg with reverse := false } i0 final (Prod.swap p)
          (rest.map Prod.swap) st hc]
      refine Eq.trans
        (congrArg (runPass { cfg with reverse := true } i0 final rest) ?_) (ih _)
      have hps : processSentence { cfg with reverse := true } final
          (mirrorPass st).table (mirrorPass st).vit p.2 p.1 =
          mirrorSent (processSentence { cfg with reverse := false } final
            st.table st.vit p.2 p.1) :=
        processSentence_mirror cfg final st.table st.vit p.2 p.1
      simp only [reverse_rev_true, reverse_rev_false, writeAlignments_rev,
        hideTA_rev, if_true, Bool.false_eq_true, if_false, Prod.fst_swap,
        Prod.snd_swap]
      norm_num
      rw [hps]
      simp [mirrorPass, mirrorSent, mirrorLines, List.map_append,
        apply_ite (List.map (List.map Prod.swap))]

lemma runIteration_mirror (cfg : Config α) (corpus : List Line) (iter : Nat)
    (st : TrainState α) :
    runIteration { cfg with reverse := true } corpus iter st =
      mirrorIterExc (runIteration { cfg with reverse := false }
        (corpus.map Prod.swap) iter st) := by
  simp only [runIteration, iterations_rev]
  conv_lhs => rw [show initPass st = mirrorPass (initPass st) from rfl]
  rw [runPass_mirror cfg (iter == 0) (iter == cfg.iterations - 1) corpus (initPass st)]
  cases hp : runPass { cfg with reverse := false } (iter == 0)
      (iter == cfg.iterations - 1) (corpus.map Prod.swap) (initPass st) with
  | error e => rfl
  | ok pr => rfl

lemma runIters_mirror (cfg : Config α) (corpus : List Line) :
    ∀ (l : List Nat) (r : TrainResult α),
    runIters { cfg with reverse := true } corpus l (mirrorResult r) =
      mirrorExc (runIters { cfg with reverse := false } (corpus.map Prod.swap) l r) := by
  intro l
  induction l with
  | nil => intro r; rfl
  | cons i rest ih =>
    intro r
    simp only [runIters]
    rw [show (mirrorResult r).state = r.state from rfl,
      runIteration_mirror cfg corpus i r.state]
    cases hi : runIteration { cfg with reverse := false } (corpus.map Prod.swap) i
        r.state with
    | error e => rfl
    | ok o =>
      show runIters { cfg with reverse := true } corpus rest _ =
        mirrorExc (runIters { cfg with reverse := false } (corpus.map Prod.swap) rest _)
      refine Eq.trans
        (congrArg (runIters { cfg with reverse := true } corpus rest) ?_) (ih _)
      simp [mirrorResult, mirrorLines, List.map_append]

/-- C4: training with `reverse` on a corpus produces exactly the same run as
training without `reverse` on the corpus with the two sides of every line
swapped, up to exchanging the two indices of every emitted alignment token
(and, on a malformed line, reporting the same line number with the sides
swapped): the final table, Viterbi set, length statistics and the per-pair
likelihoods of every iteration are identical. -/
theorem reverse_round_trip (cfg : Config α) (corpus : List Line) :
    runTrain { cfg with reverse := true } corpus =
      mirrorExc (runTrain { cfg with reverse := false } (corpus.map Prod.swap)) := by
  unfold runTrain
  rw [iterations_rev, iterations_rev]
  conv_lhs => rw [show ({ state := initTrain, perPairAll := [], alignOut := [] } :
      TrainResult α) =
    mirrorResult { state := initTrain, perPairAll := [], alignOut := [] } from rfl]
  exact runIters_mirror cfg corpus (List.range cfg.iterations) _

end FastAlign
